import Mathlib

/-!
# Verification of the `async-orm` query-construction and relation-resolution core

The repository ships its test suite (`tests/test_or_filters.py`,
`tests/test_forward_refs.py`, `tests/test_m2m_through_fields.py`) and the
package façade `orm/__init__.py`; the implementation modules (filter
translator, join planner, alias manager, query assembler, result hydrator,
registry / forward-ref resolver) are not part of the sources.  Every
definition below is therefore modelled from the specification's description
of those components, and the theorems check the spec's claims against that
model.
-/

set_option autoImplicit false

deriving instance DecidableEq for Except

namespace AsyncOrm

/-! ## Values and comparison operators (spec §4.2) -/

/-- Modelled from the spec: the scalar values the filter translator compares
(the field-validation layer is external; integers, strings and SQL NULL are
enough for every behaviour the spec describes). -/
inductive Value where
  | int (n : Int)
  | str (s : String)
  | null
  deriving DecidableEq

instance : BEq Value := ⟨fun a b => decide (a = b)⟩

/-- `listStarts p s` is true when the character list `p` starts the list `s`. -/
def listStarts : List Char → List Char → Bool
  | [], _ => true
  | _ :: _, [] => false
  | a :: as, b :: bs => a == b && listStarts as bs

/-- `strStarts s p`: the string `s` starts with the pattern `p`. -/
def strStarts (s p : String) : Bool := listStarts p.data s.data

/-- `strEnds s p`: the string `s` ends with the pattern `p`. -/
def strEnds (s p : String) : Bool := listStarts p.data.reverse s.data.reverse

/-- `strHas s p`: the pattern `p` occurs somewhere inside the string `s`. -/
def strHas (s p : String) : Bool := s.data.tails.any (listStarts p.data)

/-- Modelled from the spec: the comparison operators recognized by the filter
translator ("exact, not-equal, greater-than, less-than, greater-or-equal,
less-or-equal, contains/startswith/endswith (pattern match), in, isnull"). -/
inductive FilterOp where
  | exact
  | ne
  | gt
  | lt
  | gte
  | lte
  | contains
  | startswith
  | endswith
  | isin
  | isnull
  deriving DecidableEq

/-- Modelled from the spec: each operator "maps to one primitive comparison
semantic".  `row` is the value the resolved path has in the current row and
`arg` the literal supplied in the filter expression. -/
def evalOp : FilterOp → Value → Value → Bool
  | .exact, row, arg => row == arg
  | .ne, row, arg => row != arg
  | .gt, .int a, .int b => b < a
  | .gt, _, _ => false
  | .lt, .int a, .int b => a < b
  | .lt, _, _ => false
  | .gte, .int a, .int b => b ≤ a
  | .gte, _, _ => false
  | .lte, .int a, .int b => a ≤ b
  | .lte, _, _ => false
  | .contains, .str s, .str p => strHas s p
  | .contains, _, _ => false
  | .startswith, .str s, .str p => strStarts s p
  | .startswith, _, _ => false
  | .endswith, .str s, .str p => strEnds s p
  | .endswith, _, _ => false
  | .isin, row, arg => row == arg
  | .isnull, row, .null => row == .null
  | .isnull, row, _ => row != .null

/-! ## Filter trees (spec §3 "Filter Node", §4.2) -/

/-- Boolean group connective of a filter `Group` node. -/
inductive GroupOp where
  | andOp
  | orOp
  deriving DecidableEq

/-- Modelled from the spec: "Filter Node: either an atomic comparison
(resolved relation path, operator, value) or a boolean Group (operator
AND/OR, ordered list of child Filter Nodes)"; `exclude()` additionally
"wraps the produced tree in a negation", which the `neg` node records. -/
inductive FilterNode where
  | atom (path : List String) (op : FilterOp) (arg : Value)
  | group (op : GroupOp) (children : List FilterNode)
  | neg (child : FilterNode)

/-- `ormar.and_(...)`: an AND group over its arguments. -/
def and_ (children : List FilterNode) : FilterNode := .group .andOp children

/-- `ormar.or_(...)`: an OR group over its arguments. -/
def or_ (children : List FilterNode) : FilterNode := .group .orOp children

/-- A database row as the filter evaluation sees it: a primary key plus the
values each resolved relation path has for this row (paths the row does not
carry read as NULL). -/
structure Row where
  pk : Nat
  cells : List (List String × Value)

/-- The value of a resolved path in a row. -/
def Row.get (r : Row) (path : List String) : Value :=
  match r.cells.find? (fun c => c.1 == path) with
  | some c => c.2
  | none => .null

mutual

/-- Modelled from the spec: truth of a filter tree at one row — an atom via
its operator's primitive comparison, an AND/OR group over its children, and a
negation as logical negation. -/
def evalNode : FilterNode → Row → Bool
  | .atom path op arg, r => evalOp op (r.get path) arg
  | .group .andOp cs, r => evalConj cs r
  | .group .orOp cs, r => evalDisj cs r
  | .neg c, r => !evalNode c r

/-- Conjunction of a list of filter nodes at one row. -/
def evalConj : List FilterNode → Row → Bool
  | [], _ => true
  | c :: cs, r => evalNode c r && evalConj cs r

/-- Disjunction of a list of filter nodes at one row. -/
def evalDisj : List FilterNode → Row → Bool
  | [], _ => false
  | c :: cs, r => evalNode c r || evalDisj cs r

end

/-! ## The immutable query builder (spec §4.2, §6, §9) -/

/-- Modelled from the spec: the immutable chainable builder — "every builder
call returns a new query value layering onto the previous one"; the WHERE
state is the list of filter trees accumulated so far, combined by AND. -/
structure QuerySet where
  whereNodes : List FilterNode

/-- The empty query over a model's full row set. -/
def QuerySet.objects : QuerySet := ⟨[]⟩

/-- Modelled from the spec: "`filter()` calls combine with AND across calls";
the new tree is layered onto the existing conjunction. -/
def QuerySet.filter (q : QuerySet) (n : FilterNode) : QuerySet :=
  ⟨q.whereNodes ++ [n]⟩

/-- Modelled from the spec: "`exclude()` wraps the produced tree in a
negation" and otherwise layers like `filter()`. -/
def QuerySet.exclude (q : QuerySet) (n : FilterNode) : QuerySet :=
  ⟨q.whereNodes ++ [.neg n]⟩

/-- Truth of the whole accumulated WHERE conjunction at one row. -/
def QuerySet.evalWhere (q : QuerySet) (r : Row) : Bool :=
  q.whereNodes.all (fun n => evalNode n r)

/-- `all()`: the rows of the backing set satisfying the WHERE conjunction, in
arrival order. -/
def QuerySet.allRows (q : QuerySet) (rows : List Row) : List Row :=
  rows.filter (fun r => q.evalWhere r)

/-- The primary keys `all()` returns. -/
def QuerySet.pks (q : QuerySet) (rows : List Row) : List Nat :=
  (q.allRows rows).map Row.pk

/-! ## Result hydrator (spec §4.5) -/

/-- A child object under construction: primary key plus its own columns. -/
structure ChildObj where
  pk : Nat
  fields : List (String × Value)
  deriving DecidableEq

/-- A root object under construction: primary key, own columns, and the
to-many child collection accumulated across rows. -/
structure RootObj where
  pk : Nat
  fields : List (String × Value)
  children : List ChildObj
  deriving DecidableEq

/-- One flat result row as the hydrator consumes it: the root's primary key
and columns, plus (when the to-many joined table produced a match on this
row) the child object carried by the row. -/
structure HRow where
  rootPk : Nat
  rootFields : List (String × Value)
  child : Option ChildObj
  deriving DecidableEq

/-- Modelled from the spec: append the child to the collection unless a child
with the same primary key is already present ("de-duplication is by primary
key; … later duplicate rows referencing the same child id do not overwrite
already-set fields"). -/
def addChildIfNew (cs : List ChildObj) (c : ChildObj) : List ChildObj :=
  if cs.any (fun c' => c'.pk == c.pk) then cs else cs ++ [c]

/-- Attach the child carried by a row (if any) to a root object. -/
def attachChild (o : RootObj) (mc : Option ChildObj) : RootObj :=
  match mc with
  | none => o
  | some c => { o with children := addChildIfNew o.children c }

/-- Modelled from the spec: "upsert the root object (first occurrence creates
it)"; an existing root with the row's primary key absorbs the row's child,
otherwise a new root is appended with the row's own columns. -/
def upsertRoot (acc : List RootObj) (row : HRow) : List RootObj :=
  if acc.any (fun o => o.pk == row.rootPk) then
    acc.map (fun o => if o.pk == row.rootPk then attachChild o row.child else o)
  else
    acc ++ [attachChild ⟨row.rootPk, row.rootFields, []⟩ row.child]

/-- The hydration loop over the remaining rows, carrying the roots built so
far ("rows are … processed in arrival order"). -/
def hydrateAux (acc : List RootObj) : List HRow → List RootObj
  | [] => acc
  | row :: rest => hydrateAux (upsertRoot acc row) rest

/-- Modelled from the spec: the Result Hydrator — consume the ordered row
sequence and return "a sequence of fully hydrated root objects in first-seen
order". -/
def hydrate (rows : List HRow) : List RootObj := hydrateAux [] rows

/-- The keys of `l` that are not in `seen`, each kept at its first
occurrence, in first-seen order. -/
def firstSeenFrom (seen : List Nat) : List Nat → List Nat
  | [] => []
  | x :: xs =>
    if x ∈ seen then firstSeenFrom seen xs
    else x :: firstSeenFrom (x :: seen) xs

/-- The keys of `l`, each kept at its first occurrence, in first-seen
order. -/
def firstSeen (l : List Nat) : List Nat := firstSeenFrom [] l

/-- The child collection of the root with primary key `k` (empty when no such
root exists). -/
def childrenOf (objs : List RootObj) (k : Nat) : List ChildObj :=
  match objs.find? (fun o => o.pk == k) with
  | some o => o.children
  | none => []

/-- The primary keys of the children carried by the rows belonging to root
`k`, in row-arrival order. -/
def rowChildPks (k : Nat) (rows : List HRow) : List Nat :=
  rows.filterMap (fun row => if row.rootPk == k then row.child.map ChildObj.pk else none)

/-! ## Model registry and forward-reference resolver (spec §4.1) -/

/-- Modelled from the spec: the target of a relation descriptor — either a
placeholder ("a string/forward-reference token standing in for a
not-yet-defined model") or the concrete class, identified by its registered
name. -/
inductive RefTarget where
  | placeholder (name : String)
  | concrete (name : String)
  deriving DecidableEq

/-- Modelled from the spec: a field descriptor — scalar, or a relation
(ForeignKey / ManyToMany / registered through field) whose target is a model
or a placeholder. -/
inductive FieldTy where
  | scalar
  | rel (target : RefTarget)
  deriving DecidableEq

/-- One declared attribute: field name plus descriptor. -/
structure FieldDef where
  name : String
  ty : FieldTy
  deriving DecidableEq

/-- A declared model class: name plus ordered field descriptors. -/
structure ModelClass where
  name : String
  fields : List FieldDef
  deriving DecidableEq

/-- Modelled from the spec: the process-wide registry of declared models —
the names against which placeholders can currently be resolved. -/
structure Registry where
  defined : List String
  deriving DecidableEq

/-- The placeholder names of a model that are still unresolved (the spec's
pending-resolution list restricted to this model). -/
def ModelClass.pendingRefs (m : ModelClass) : List String :=
  m.fields.filterMap (fun f =>
    match f.ty with
    | .rel (.placeholder n) => some n
    | _ => none)

/-- Modelled from the spec: rewrite one target — "every descriptor in the
pending list matching the now-available name is rewritten in place to point
at the concrete class"; names not yet declared stay pending. -/
def resolveTarget (reg : Registry) : RefTarget → RefTarget
  | .placeholder n => if n ∈ reg.defined then .concrete n else .placeholder n
  | .concrete n => .concrete n

/-- Rewrite one field descriptor against the registry. -/
def resolveFieldTy (reg : Registry) : FieldTy → FieldTy
  | .scalar => .scalar
  | .rel t => .rel (resolveTarget reg t)

/-- Modelled from the spec: `update_forward_refs()` — rewrite every pending
descriptor of the model whose placeholder name is now available. -/
def updateForwardRefs (reg : Registry) (m : ModelClass) : ModelClass :=
  { m with fields := m.fields.map (fun f => { f with ty := resolveFieldTy reg f.ty }) }

/-! ## Error kinds and the external execution layer (spec §6, §7) -/

/-- The error kinds of spec §7. -/
inductive OrmError where
  | modelNotReady (model : String)
  | fieldNotFound (model : String) (segment : String)
  | queryDefinitionError
  | noMatch
  | multipleMatches
  deriving DecidableEq

/-- The external execution layer's observable state: a counter of statements
executed, enough to observe whether any database interaction took place. -/
structure Db where
  statements : Nat
  deriving DecidableEq

/-- Execute one statement against the backend. -/
def Db.exec (db : Db) : Db := { db with statements := db.statements + 1 }

/-- A materialized instance of a model: class name plus column values. -/
structure Instance where
  model : String
  values : List (String × Value)
  deriving DecidableEq

/-- Modelled from the spec: `create()` — "invoking query operations
(`create`, `get`, construction with values) on a model that still has
unresolved placeholders fails with a `ModelNotReady` kind of error — this
must be raised eagerly, before any database interaction"; on a ready model
one INSERT statement is executed. -/
def createOp (m : ModelClass) (vals : List (String × Value)) (db : Db) :
    Db × Except OrmError Instance :=
  if m.pendingRefs = [] then (db.exec, .ok ⟨m.name, vals⟩)
  else (db, .error (.modelNotReady m.name))

/-- Modelled from the spec: `get()` — the same eager readiness check, then
one SELECT whose row multiplicity decides NoMatch / ok / MultipleMatches. -/
def getOp (m : ModelClass) (db : Db) (results : List Instance) :
    Db × Except OrmError Instance :=
  if m.pendingRefs = [] then
    (db.exec,
      match results with
      | [] => .error .noMatch
      | [r] => .ok r
      | _ :: _ :: _ => .error .multipleMatches)
  else (db, .error (.modelNotReady m.name))

/-- Modelled from the spec: constructing a model instance from keyword
values performs the same eager readiness check and touches no database. -/
def constructOp (m : ModelClass) (vals : List (String × Value)) :
    Except OrmError Instance :=
  if m.pendingRefs = [] then .ok ⟨m.name, vals⟩
  else .error (.modelNotReady m.name)

/-! ## Join planner alias manager (spec §3 "Alias", §4.3) -/

/-- Modelled from the spec: the per-query alias state — "a per-traversal-path
symbolic name for a joined table instance", assignments keyed by the full
relation path (never by target model). -/
structure AliasManager where
  assigned : List (List String × Nat)

/-- The empty alias state at the start of a query. -/
def AliasManager.empty : AliasManager := ⟨[]⟩

/-- The alias already assigned to a path, if any. -/
def AliasManager.lookup (am : AliasManager) (path : List String) : Option Nat :=
  (am.assigned.find? (fun e => e.1 == path)).map Prod.snd

/-- Modelled from the spec: resolving a path "assigns a new unique alias for
that hop unless an identical path prefix was already assigned an alias
earlier in the same query (sharing is by full path equality, not by target
model identity)"; the fresh alias is the next unused index. -/
def AliasManager.resolve (am : AliasManager) (path : List String) :
    AliasManager × Nat :=
  match am.lookup path with
  | some a => (am, a)
  | none => (⟨am.assigned ++ [(path, am.assigned.length)]⟩, am.assigned.length)

/-- Resolve, in order, every path a query references. -/
def AliasManager.resolveAll (am : AliasManager) : List (List String) → AliasManager
  | [] => am
  | p :: ps => ((am.resolve p).1).resolveAll ps

/-- The aliases handed out so far are exactly `0, 1, …, n-1` in assignment
order (the join planner's no-duplicate-aliases guarantee). -/
def AliasManager.Inv (am : AliasManager) : Prop :=
  am.assigned.map Prod.snd = List.range am.assigned.length

/-! ## Many-to-many relations with a through model (spec §3, §4.5, §8) -/

/-- A stored row of the through table: the two side keys plus the through
model's extra columns. -/
structure ThroughRow where
  ownerPk : Nat
  childPk : Nat
  extras : List (String × Value)
  deriving DecidableEq

/-- A related instance as seen from one side of a many-to-many relation: the
related object's key plus the embedded through-model reference (present on
every instance; `none` while unset). -/
structure RelatedView where
  pk : Nat
  through : Option (List (String × Value))
  deriving DecidableEq

/-- The state of one many-to-many relation: the through-table rows plus the
in-memory child collection held per owning instance. -/
structure M2MState where
  throughRows : List ThroughRow
  ownerChildren : Nat → List RelatedView

/-- The in-memory child collection an owner instance currently holds. -/
def M2MState.childrenOfOwner (st : M2MState) (o : Nat) : List RelatedView :=
  st.ownerChildren o

/-- Modelled from the spec and the through-model tests: `add(child, extras)`
inserts one through-table row carrying the extra columns and appends the
child to the owner's in-memory collection with the embedded through
reference present but unset. -/
def M2MState.add (st : M2MState) (o c : Nat) (extras : List (String × Value)) :
    M2MState :=
  { throughRows := st.throughRows ++ [⟨o, c, extras⟩],
    ownerChildren := fun x =>
      if x = o then st.ownerChildren o ++ [⟨c, none⟩] else st.ownerChildren x }

/-- Modelled from the spec: traversing the relation from the owning side —
each matching through row contributes the child with the through payload
"exposed on the child instance as an embedded through-model reference
reachable from the parent's side of the relation only". -/
def M2MState.loadOwning (st : M2MState) (o : Nat) : List RelatedView :=
  (st.throughRows.filter (fun tr => tr.ownerPk == o)).map
    (fun tr => ⟨tr.childPk, some tr.extras⟩)

/-- Modelled from the spec: traversing from the reverse side reaches the
related owners, but "the reverse side does not expose it": no through
payload is embedded. -/
def M2MState.loadReverse (st : M2MState) (c : Nat) : List RelatedView :=
  (st.throughRows.filter (fun tr => tr.childPk == c)).map
    (fun tr => ⟨tr.ownerPk, none⟩)

/-- Refresh the owner's in-memory collection by querying the relation
(`await post.categories.all()`). -/
def M2MState.loadAll (st : M2MState) (o : Nat) : M2MState :=
  { st with ownerChildren := fun x =>
      if x = o then st.loadOwning o else st.ownerChildren x }

/-- A direct query of the through model returns its stored rows. -/
def M2MState.queryThrough (st : M2MState) : List ThroughRow := st.throughRows

/-! ## Query assembler (spec §4.4) -/

/-- One planned join: the traversal path, its alias, and whether its
cardinality relative to the root is to-many. -/
structure JoinEntry where
  path : List String
  aliasId : Nat
  toMany : Bool
  deriving DecidableEq

/-- The request a query chain denotes once translation and join planning are
done: joins, WHERE forest, and optional LIMIT/OFFSET on the root. -/
structure QueryRequest where
  joins : List JoinEntry
  whereNodes : List FilterNode
  limit : Option Nat
  offset : Option Nat

/-- The immutable query plan the assembler emits. -/
structure QueryPlan where
  joins : List JoinEntry
  whereNodes : List FilterNode
  limit : Option Nat
  offset : Option Nat

/-- Modelled from the spec: the Query Assembler — "if any to-many join is
present and a limit is also requested on the root, this is flagged as an
error condition (`QueryDefinitionError`) … this must be rejected, not
silently wrong"; otherwise the plan value is produced.  Pure: no I/O. -/
def buildPlan (q : QueryRequest) : Except OrmError QueryPlan :=
  if q.joins.any JoinEntry.toMany && q.limit.isSome then
    .error .queryDefinitionError
  else
    .ok ⟨q.joins, q.whereNodes, q.limit, q.offset⟩

/-- Plan construction followed by execution: only a successfully assembled
plan reaches the database. -/
def runQuery (q : QueryRequest) (db : Db) : Db × Except OrmError QueryPlan :=
  match buildPlan q with
  | .error e => (db, .error e)
  | .ok p => (db.exec, .ok p)

/-! ## Relation schema and filter-path resolution (spec §4.2–§4.3) -/

/-- Field metadata the path resolver needs: a scalar column, or a relation
hop to a target model with its to-many cardinality. -/
inductive SField where
  | scalar
  | rel (target : String) (toMany : Bool)
  deriving DecidableEq

/-- One named field of a schema model. -/
structure SchemaField where
  name : String
  ty : SField
  deriving DecidableEq

/-- A model of the relation graph. -/
structure SchemaModel where
  name : String
  fields : List SchemaField
  deriving DecidableEq

/-- The relation graph the translator and planner walk. -/
structure Schema where
  models : List SchemaModel
  deriving DecidableEq

/-- The declared fields of a model (empty for an unknown model name). -/
def Schema.fieldsOf (s : Schema) (m : String) : List SchemaField :=
  match s.models.find? (fun md => md.name == m) with
  | some md => md.fields
  | none => []

/-- Look one field up on a model. -/
def findField (s : Schema) (m f : String) : Option SField :=
  match (s.fieldsOf m).find? (fun fd => fd.name == f) with
  | some fd => some fd.ty
  | none => none

/-- Lowercase one ASCII character. -/
def lowerChar (c : Char) : Char :=
  if 'A' ≤ c ∧ c ≤ 'Z' then Char.ofNat (c.toNat + 32) else c

/-- Lowercase a class name, as the through-field registration rule uses. -/
def lowerName (s : String) : String := ⟨s.data.map lowerChar⟩

/-- Split a key on the double-underscore delimiter, accumulating the current
segment's characters in reverse. -/
def splitSegsAux : List Char → List Char → List String
  | [], cur => [⟨cur.reverse⟩]
  | '_' :: '_' :: rest, cur => ⟨cur.reverse⟩ :: splitSegsAux rest []
  | c :: rest, cur => splitSegsAux rest (c :: cur)

/-- Modelled from the spec: filter/order keys are "double-underscore-
delimited path segments"; split one key into its segments. -/
def splitKey (key : String) : List String := splitSegsAux key.data []

/-- A ManyToMany declaration: owner, target, through class, forward relation
name and reverse relation name. -/
structure M2MDecl where
  owner : String
  target : String
  through : String
  relName : String
  reverseName : String
  deriving DecidableEq

/-- Modelled from the spec and the through-model tests: declaring
`ManyToMany(target, through=Through)` on the owner registers the forward
to-many relation under its declared name and additionally registers the
through model as a model field under the through class's lowercased name. -/
def m2mOwnerFields (d : M2MDecl) : List SchemaField :=
  [⟨d.relName, .rel d.target true⟩, ⟨lowerName d.through, .rel d.through true⟩]

/-- The reverse side of the declaration: the target model gains the reverse
to-many relation. -/
def m2mTargetFields (d : M2MDecl) : List SchemaField :=
  [⟨d.reverseName, .rel d.owner true⟩]

/-- Modelled from the spec: the recognized trailing operator keywords of the
filter translator; any other trailing token is not an operator. -/
def opOfString : String → Option FilterOp
  | "exact" => some .exact
  | "neq" => some .ne
  | "gt" => some .gt
  | "lt" => some .lt
  | "gte" => some .gte
  | "lte" => some .lte
  | "contains" => some .contains
  | "startswith" => some .startswith
  | "endswith" => some .endswith
  | "in" => some .isin
  | "isnull" => some .isnull
  | _ => none

/-- The typed result of resolving one filter key: the join path consumed,
the terminal column, and the comparison operator (equality when absent). -/
structure ResolvedPath where
  joinPath : List String
  column : String
  op : FilterOp
  deriving DecidableEq

/-- Modelled from the spec: "split on the delimiter; walk segments against
the relation graph of the originating model, consuming relation-name
segments as traversal steps (recording that a join through this path is
required) until the remaining segment(s) name a scalar field (with optional
trailing operator keyword) … Fail with a `FieldNotFound`-kind error if a
segment cannot be resolved"; a path used for filtering must terminate at a
scalar field. -/
def resolveSegments (s : Schema) : String → List String → List String →
    Except OrmError ResolvedPath
  | model, _, [] => .error (.fieldNotFound model "")
  | model, acc, [seg] =>
    match findField s model seg with
    | some .scalar => .ok ⟨acc, seg, .exact⟩
    | some (.rel _ _) => .error (.fieldNotFound model seg)
    | none => .error (.fieldNotFound model seg)
  | model, acc, seg :: seg₂ :: rest =>
    match findField s model seg with
    | some (.rel target _) => resolveSegments s target (acc ++ [seg]) (seg₂ :: rest)
    | some .scalar =>
      match rest, opOfString seg₂ with
      | [], some op => .ok ⟨acc, seg, op⟩
      | _, _ => .error (.fieldNotFound model seg₂)
    | none => .error (.fieldNotFound model seg)

/-- Resolve one keyword filter key such as `"posts__postcategory__sort_order__gt"`. -/
def resolveFilterKey (s : Schema) (model key : String) :
    Except OrmError ResolvedPath :=
  resolveSegments s model [] (splitKey key)

/-- Resolve one `order_by` key: a leading `-` selects descending order; the
rest resolves by the same path rules as filters. -/
def resolveOrderKey (s : Schema) (model key : String) :
    Except OrmError (ResolvedPath × Bool) :=
  match key.data with
  | '-' :: rest =>
    (resolveSegments s model [] (splitSegsAux rest [])).map (fun r => (r, true))
  | _ => (resolveSegments s model [] (splitKey key)).map (fun r => (r, false))

/-- The `Blog` / `Post` / `Category` / `PostCategory` relation graph of the
through-model tests, with the many-to-many fields produced by the
registration rule. -/
def postsSchema : Schema :=
  ⟨[⟨"Blog", [⟨"id", .scalar⟩, ⟨"title", .scalar⟩, ⟨"posts", .rel "Post" true⟩]⟩,
    ⟨"Post", [⟨"id", .scalar⟩, ⟨"title", .scalar⟩, ⟨"blog", .rel "Blog" false⟩]
      ++ m2mOwnerFields ⟨"Post", "Category", "PostCategory", "categories", "posts"⟩⟩,
    ⟨"Category", [⟨"id", .scalar⟩, ⟨"name", .scalar⟩]
      ++ m2mTargetFields ⟨"Post", "Category", "PostCategory", "categories", "posts"⟩⟩,
    ⟨"PostCategory",
      [⟨"id", .scalar⟩, ⟨"sort_order", .scalar⟩, ⟨"param_name", .scalar⟩]⟩]⟩

/-! ## Lemmas about the query builder -/

theorem mem_pks {q : QuerySet} {rows : List Row} {k : Nat} :
    k ∈ q.pks rows ↔ ∃ r, r ∈ rows ∧ q.evalWhere r = true ∧ r.pk = k := by
  simp only [QuerySet.pks, QuerySet.allRows, List.mem_map, List.mem_filter]
  constructor
  · rintro ⟨r, ⟨hr, hw⟩, hpk⟩
    exact ⟨r, hr, hw, hpk⟩
  · rintro ⟨r, hr, hw, hpk⟩
    exact ⟨r, ⟨hr, hw⟩, hpk⟩

theorem evalWhere_filter (q : QuerySet) (n : FilterNode) (r : Row) :
    (q.filter n).evalWhere r = (q.evalWhere r && evalNode n r) := by
  simp [QuerySet.filter, QuerySet.evalWhere]

theorem evalWhere_exclude (q : QuerySet) (n : FilterNode) (r : Row) :
    (q.exclude n).evalWhere r = (q.evalWhere r && !evalNode n r) := by
  simp [QuerySet.exclude, QuerySet.evalWhere, evalNode]

/-- **C1.** `exclude(X)` is the logical negation of `filter(X)`: on any row
set with distinct primary keys, and with any other filters `q` applied
identically to both queries, the primary keys of `filter(X).all()` and of
`exclude(X).all()` are disjoint and their union is exactly the primary keys
of the set `q` alone selects. -/
theorem filter_exclude_partition (q : QuerySet) (x : FilterNode) (rows : List Row)
    (hnodup : (rows.map Row.pk).Nodup) :
    (∀ k, ¬(k ∈ (q.filter x).pks rows ∧ k ∈ (q.exclude x).pks rows)) ∧
    (∀ k, (k ∈ (q.filter x).pks rows ∨ k ∈ (q.exclude x).pks rows) ↔ k ∈ q.pks rows) := by
  constructor
  · rintro k ⟨hf, he⟩
    obtain ⟨r₁, hr₁, hw₁, hpk₁⟩ := mem_pks.mp hf
    obtain ⟨r₂, hr₂, hw₂, hpk₂⟩ := mem_pks.mp he
    have hreq : r₁ = r₂ :=
      List.inj_on_of_nodup_map hnodup hr₁ hr₂ (hpk₁.trans hpk₂.symm)
    subst hreq
    rw [evalWhere_filter] at hw₁
    rw [evalWhere_exclude] at hw₂
    have h₁ := (Bool.and_eq_true _ _).mp hw₁
    have h₂ := (Bool.and_eq_true _ _).mp hw₂
    rw [h₁.2] at h₂
    exact Bool.false_ne_true h₂.2
  · intro k
    constructor
    · rintro (hf | hf)
      all_goals
        obtain ⟨r, hr, hw, hpk⟩ := mem_pks.mp hf
        refine mem_pks.mpr ⟨r, hr, ?_, hpk⟩
        first
          | (rw [evalWhere_filter] at hw; exact ((Bool.and_eq_true _ _).mp hw).1)
          | (rw [evalWhere_exclude] at hw; exact ((Bool.and_eq_true _ _).mp hw).1)
    · intro hall
      obtain ⟨r, hr, hw, hpk⟩ := mem_pks.mp hall
      cases hx : evalNode x r with
      | true =>
        exact Or.inl (mem_pks.mpr ⟨r, hr, by rw [evalWhere_filter, hw, hx]; rfl, hpk⟩)
      | false =>
        exact Or.inr (mem_pks.mpr ⟨r, hr, by rw [evalWhere_exclude, hw, hx]; rfl, hpk⟩)

/-- Concrete instantiation of `filter_exclude_partition`: two rows, the tree
filtering on `year > 1960`. -/
theorem filter_exclude_partition_witness :
    (([⟨1, [(["year"], Value.int 1955)]⟩,
       ⟨2, [(["year"], Value.int 1977)]⟩] : List Row).map Row.pk).Nodup ∧
    ((∀ k, ¬(k ∈ (QuerySet.objects.filter (.atom ["year"] .gt (.int 1960))).pks
              [⟨1, [(["year"], Value.int 1955)]⟩, ⟨2, [(["year"], Value.int 1977)]⟩] ∧
            k ∈ (QuerySet.objects.exclude (.atom ["year"] .gt (.int 1960))).pks
              [⟨1, [(["year"], Value.int 1955)]⟩, ⟨2, [(["year"], Value.int 1977)]⟩])) ∧
     (∀ k, (k ∈ (QuerySet.objects.filter (.atom ["year"] .gt (.int 1960))).pks
              [⟨1, [(["year"], Value.int 1955)]⟩, ⟨2, [(["year"], Value.int 1977)]⟩] ∨
            k ∈ (QuerySet.objects.exclude (.atom ["year"] .gt (.int 1960))).pks
              [⟨1, [(["year"], Value.int 1955)]⟩, ⟨2, [(["year"], Value.int 1977)]⟩]) ↔
           k ∈ QuerySet.objects.pks
              [⟨1, [(["year"], Value.int 1955)]⟩, ⟨2, [(["year"], Value.int 1977)]⟩])) :=
  ⟨by decide,
   filter_exclude_partition QuerySet.objects (.atom ["year"] .gt (.int 1960))
     [⟨1, [(["year"], Value.int 1955)]⟩, ⟨2, [(["year"], Value.int 1977)]⟩] (by decide)⟩

/-- **C2.** A nested `or_(and_(a, b), and_(c, d))` group over atomic
comparisons evaluates on every row exactly as the boolean formula
`(a AND b) OR (c AND d)` over the atoms' truth values, and a subsequent
`filter(k)` call combines with the group by AND: a row is returned iff the
previous filters, the group, and the new filter all hold. -/
theorem or_and_group_semantics (pa pb pc pd : List String)
    (oa ob oc od : FilterOp) (va vb vc vd : Value)
    (q : QuerySet) (k : FilterNode) (rows : List Row) :
    (∀ r : Row,
      evalNode (or_ [and_ [.atom pa oa va, .atom pb ob vb],
                     and_ [.atom pc oc vc, .atom pd od vd]]) r =
        ((evalOp oa (r.get pa) va && evalOp ob (r.get pb) vb) ||
         (evalOp oc (r.get pc) vc && evalOp od (r.get pd) vd))) ∧
    ((q.filter (or_ [and_ [.atom pa oa va, .atom pb ob vb],
                     and_ [.atom pc oc vc, .atom pd od vd]])).filter k).allRows rows =
      rows.filter (fun r =>
        q.evalWhere r &&
        evalNode (or_ [and_ [.atom pa oa va, .atom pb ob vb],
                       and_ [.atom pc oc vc, .atom pd od vd]]) r &&
        evalNode k r) := by
  constructor
  · intro r
    simp [or_, and_, evalNode, evalConj, evalDisj]
  · unfold QuerySet.allRows
    apply List.filter_congr
    intro r _
    rw [evalWhere_filter, evalWhere_filter]

/-! ## Lemmas about the hydrator -/

theorem mem_firstSeenFrom {y : Nat} :
    ∀ (l seen : List Nat), y ∈ firstSeenFrom seen l ↔ y ∈ l ∧ y ∉ seen := by
  intro l
  induction l with
  | nil => intro seen; simp [firstSeenFrom]
  | cons x xs ih =>
    intro seen
    by_cases hx : x ∈ seen
    · rw [firstSeenFrom, if_pos hx, ih]
      constructor
      · rintro ⟨hy, hns⟩
        exact ⟨List.mem_cons_of_mem _ hy, hns⟩
      · rintro ⟨hy, hns⟩
        rcases List.mem_cons.mp hy with h | h
        · exact absurd (h ▸ hx) hns
        · exact ⟨h, hns⟩
    · rw [firstSeenFrom, if_neg hx]
      constructor
      · intro hy
        rcases List.mem_cons.mp hy with h | h
        · exact ⟨h ▸ List.mem_cons_self x xs, h ▸ hx⟩
        · obtain ⟨h₁, h₂⟩ := (ih (x :: seen)).mp h
          exact ⟨List.mem_cons_of_mem _ h₁,
                 fun hs => h₂ (List.mem_cons_of_mem _ hs)⟩
      · rintro ⟨hy, hns⟩
        by_cases hyx : y = x
        · exact hyx ▸ List.mem_cons_self x _
        · rcases List.mem_cons.mp hy with h | h
          · exact absurd h hyx
          · refine List.mem_cons_of_mem _ ((ih (x :: seen)).mpr ⟨h, ?_⟩)
            intro hs
            rcases List.mem_cons.mp hs with h' | h'
            · exact hyx h'
            · exact hns h'

theorem firstSeenFrom_nodup : ∀ (l seen : List Nat), (firstSeenFrom seen l).Nodup := by
  intro l
  induction l with
  | nil => intro seen; simp [firstSeenFrom]
  | cons x xs ih =>
    intro seen
    by_cases hx : x ∈ seen
    · rw [firstSeenFrom, if_pos hx]; exact ih seen
    · rw [firstSeenFrom, if_neg hx]
      refine List.nodup_cons.mpr ⟨?_, ih (x :: seen)⟩
      intro hmem
      exact ((mem_firstSeenFrom xs (x :: seen)).mp hmem).2 (List.mem_cons_self x seen)

theorem firstSeenFrom_congr {s₁ s₂ : List Nat} (h : ∀ y, y ∈ s₁ ↔ y ∈ s₂) :
    ∀ l : List Nat, firstSeenFrom s₁ l = firstSeenFrom s₂ l := by
  intro l
  induction l generalizing s₁ s₂ with
  | nil => simp [firstSeenFrom]
  | cons x xs ih =>
    by_cases hx : x ∈ s₁
    · rw [firstSeenFrom, if_pos hx, firstSeenFrom, if_pos ((h x).mp hx)]
      exact ih h
    · rw [firstSeenFrom, if_neg hx, firstSeenFrom, if_neg (fun hc => hx ((h x).mpr hc))]
      refine congrArg (x :: ·) (ih ?_)
      intro y
      simp only [List.mem_cons]
      exact or_congr Iff.rfl (h y)

theorem any_proj_eq {α : Type} (f : α → Nat) (k : Nat) :
    ∀ l : List α, l.any (fun a => f a == k) = true ↔ k ∈ l.map f := by
  intro l
  simp only [List.any_eq_true, List.mem_map, beq_iff_eq]

theorem pk_attachChild (o : RootObj) (mc : Option ChildObj) :
    (attachChild o mc).pk = o.pk := by
  cases mc <;> rfl

theorem map_pk_upsert (acc : List RootObj) (row : HRow) :
    (upsertRoot acc row).map RootObj.pk =
      if row.rootPk ∈ acc.map RootObj.pk then acc.map RootObj.pk
      else acc.map RootObj.pk ++ [row.rootPk] := by
  by_cases hmem : row.rootPk ∈ acc.map RootObj.pk
  · rw [if_pos hmem, upsertRoot, if_pos ((any_proj_eq RootObj.pk row.rootPk acc).mpr hmem)]
    rw [List.map_map]
    refine List.map_congr_left ?_
    intro o _
    by_cases ho : o.pk = row.rootPk
    · simp [Function.comp_apply, pk_attachChild, ho]
    · simp [Function.comp_apply, ho]
  · rw [if_neg hmem, upsertRoot,
      if_neg (by
        intro hc
        exact hmem ((any_proj_eq RootObj.pk row.rootPk acc).mp hc))]
    rw [List.map_append, List.map_cons, List.map_nil, pk_attachChild]

theorem hydrateAux_map_pk :
    ∀ (rows : List HRow) (acc : List RootObj),
      (hydrateAux acc rows).map RootObj.pk =
        acc.map RootObj.pk ++
          firstSeenFrom (acc.map RootObj.pk) (rows.map HRow.rootPk) := by
  intro rows
  induction rows with
  | nil => intro acc; simp [hydrateAux, firstSeenFrom]
  | cons row rest ih =>
    intro acc
    rw [hydrateAux, ih, map_pk_upsert, List.map_cons]
    by_cases hmem : row.rootPk ∈ acc.map RootObj.pk
    · rw [if_pos hmem, firstSeenFrom, if_pos hmem]
    · rw [if_neg hmem, firstSeenFrom, if_neg hmem,
        @firstSeenFrom_congr (acc.map RootObj.pk ++ [row.rootPk])
          (row.rootPk :: acc.map RootObj.pk)
          (by intro y; simp [List.mem_append, or_comm]) (rest.map HRow.rootPk)]
      simp [List.append_assoc]

theorem attachChild_none (o : RootObj) : attachChild o none = o := rfl

theorem attachChild_some (o : RootObj) (c : ChildObj) :
    attachChild o (some c) = { o with children := addChildIfNew o.children c } := rfl

theorem childrenOf_cons (o : RootObj) (objs : List RootObj) (k : Nat) :
    childrenOf (o :: objs) k = if o.pk = k then o.children else childrenOf objs k := by
  by_cases h : o.pk = k
  · have hb : (o.pk == k) = true := by simp [h]
    simp [childrenOf, List.find?, hb, h]
  · have hb : (o.pk == k) = false := by simp [h]
    simp [childrenOf, List.find?, hb, h]

theorem childrenOf_not_mem {acc : List RootObj} {k : Nat}
    (h : k ∉ acc.map RootObj.pk) : childrenOf acc k = [] := by
  induction acc with
  | nil => rfl
  | cons o objs ih =>
    rw [List.map_cons] at h
    rw [childrenOf_cons, if_neg (fun hc => h (List.mem_cons.mpr (Or.inl hc.symm)))]
    exact ih (fun hc => h (List.mem_cons_of_mem _ hc))

theorem childrenOf_append_found {acc : List RootObj} {o : RootObj} {k : Nat}
    (hmem : k ∉ acc.map RootObj.pk) (hpk : o.pk = k) :
    childrenOf (acc ++ [o]) k = o.children := by
  induction acc with
  | nil => rw [List.nil_append, childrenOf_cons, if_pos hpk]
  | cons o' objs ih =>
    rw [List.map_cons] at hmem
    rw [List.cons_append, childrenOf_cons,
      if_neg (fun hc => hmem (List.mem_cons.mpr (Or.inl hc.symm)))]
    exact ih (fun hc => hmem (List.mem_cons_of_mem _ hc))

theorem childrenOf_map_update {acc : List RootObj} {t k : Nat} {mc : Option ChildObj}
    (hne : t ≠ k) :
    childrenOf (acc.map (fun o => if o.pk == t then attachChild o mc else o)) k
      = childrenOf acc k := by
  induction acc with
  | nil => rfl
  | cons o objs ih =>
    rw [List.map_cons]
    by_cases ho : o.pk = t
    · rw [if_pos (by simp [ho]), childrenOf_cons, pk_attachChild,
        if_neg (fun hc => hne (ho ▸ hc)), childrenOf_cons,
        if_neg (fun hc => hne (ho ▸ hc))]
      exact ih
    · rw [if_neg (by simp [ho]), childrenOf_cons, childrenOf_cons]
      by_cases hok : o.pk = k
      · rw [if_pos hok, if_pos hok]
      · rw [if_neg hok, if_neg hok]
        exact ih

theorem childrenOf_map_update_self {acc : List RootObj} {t : Nat} {mc : Option ChildObj}
    (hmem : t ∈ acc.map RootObj.pk) :
    childrenOf (acc.map (fun o => if o.pk == t then attachChild o mc else o)) t
      = (attachChild ⟨t, [], childrenOf acc t⟩ mc).children := by
  induction acc with
  | nil => simp at hmem
  | cons o objs ih =>
    rw [List.map_cons]
    by_cases ho : o.pk = t
    · rw [if_pos (by simp [ho]), childrenOf_cons, pk_attachChild, if_pos ho,
        childrenOf_cons, if_pos ho]
      cases mc with
      | none => rfl
      | some c => rfl
    · rw [if_neg (by simp [ho]), childrenOf_cons, if_neg ho, childrenOf_cons, if_neg ho]
      rw [List.map_cons] at hmem
      rcases List.mem_cons.mp hmem with h | h
      · exact absurd h.symm ho
      · exact ih h

theorem childrenOf_append_skip {acc : List RootObj} {o : RootObj} {k : Nat}
    (hpk : o.pk ≠ k) :
    childrenOf (acc ++ [o]) k = childrenOf acc k := by
  induction acc with
  | nil => rw [List.nil_append, childrenOf_cons, if_neg hpk]
  | cons o' objs ih =>
    rw [List.cons_append, childrenOf_cons, childrenOf_cons]
    by_cases ho : o'.pk = k
    · rw [if_pos ho, if_pos ho]
    · rw [if_neg ho, if_neg ho]
      exact ih

theorem childrenOf_upsert_ne (acc : List RootObj) (row : HRow) (k : Nat)
    (hne : row.rootPk ≠ k) :
    childrenOf (upsertRoot acc row) k = childrenOf acc k := by
  rw [upsertRoot]
  split
  · exact childrenOf_map_update hne
  · exact childrenOf_append_skip (by rw [pk_attachChild]; exact hne)

theorem childrenOf_upsert_self (acc : List RootObj) (row : HRow) :
    childrenOf (upsertRoot acc row) row.rootPk
      = (attachChild ⟨row.rootPk, row.rootFields, childrenOf acc row.rootPk⟩
          row.child).children := by
  rw [upsertRoot]
  split
  case isTrue h =>
    rw [childrenOf_map_update_self ((any_proj_eq RootObj.pk row.rootPk acc).mp h)]
    cases row.child with
    | none => rfl
    | some c => rfl
  case isFalse h =>
    have hmem : row.rootPk ∉ acc.map RootObj.pk :=
      fun hc => h ((any_proj_eq RootObj.pk row.rootPk acc).mpr hc)
    rw [childrenOf_append_found hmem (pk_attachChild _ _), childrenOf_not_mem hmem]

theorem childrenOf_upsert_self_none (acc : List RootObj) (row : HRow)
    (hc : row.child = none) :
    childrenOf (upsertRoot acc row) row.rootPk = childrenOf acc row.rootPk := by
  rw [childrenOf_upsert_self, hc, attachChild_none]

theorem childrenOf_upsert_self_some (acc : List RootObj) (row : HRow) (c : ChildObj)
    (hc : row.child = some c) :
    childrenOf (upsertRoot acc row) row.rootPk
      = addChildIfNew (childrenOf acc row.rootPk) c := by
  rw [childrenOf_upsert_self, hc, attachChild_some]

theorem map_pk_addChildIfNew (cs : List ChildObj) (c : ChildObj) :
    (addChildIfNew cs c).map ChildObj.pk =
      if c.pk ∈ cs.map ChildObj.pk then cs.map ChildObj.pk
      else cs.map ChildObj.pk ++ [c.pk] := by
  by_cases h : c.pk ∈ cs.map ChildObj.pk
  · rw [if_pos h, addChildIfNew, if_pos ((any_proj_eq ChildObj.pk c.pk cs).mpr h)]
  · rw [if_neg h, addChildIfNew,
      if_neg (fun hcc => h ((any_proj_eq ChildObj.pk c.pk cs).mp hcc)),
      List.map_append, List.map_cons, List.map_nil]

theorem rowChildPks_cons_ne {row : HRow} {rest : List HRow} {k : Nat}
    (hk : row.rootPk ≠ k) :
    rowChildPks k (row :: rest) = rowChildPks k rest := by
  simp [rowChildPks, List.filterMap_cons, hk]

theorem rowChildPks_cons_self_none {row : HRow} {rest : List HRow} {k : Nat}
    (hk : row.rootPk = k) (hc : row.child = none) :
    rowChildPks k (row :: rest) = rowChildPks k rest := by
  simp [rowChildPks, List.filterMap_cons, hk, hc]

theorem rowChildPks_cons_self_some {row : HRow} {rest : List HRow} {k : Nat}
    {c : ChildObj} (hk : row.rootPk = k) (hc : row.child = some c) :
    rowChildPks k (row :: rest) = c.pk :: rowChildPks k rest := by
  simp [rowChildPks, List.filterMap_cons, hk, hc]

theorem hydrateAux_children :
    ∀ (rows : List HRow) (acc : List RootObj) (k : Nat),
      (childrenOf (hydrateAux acc rows) k).map ChildObj.pk =
        (childrenOf acc k).map ChildObj.pk ++
          firstSeenFrom ((childrenOf acc k).map ChildObj.pk) (rowChildPks k rows) := by
  intro rows
  induction rows with
  | nil => intro acc k; simp [hydrateAux, rowChildPks, firstSeenFrom]
  | cons row rest ih =>
    intro acc k
    rw [hydrateAux, ih]
    by_cases hk : row.rootPk = k
    · subst hk
      cases hc : row.child with
      | none =>
        rw [childrenOf_upsert_self_none acc row hc, rowChildPks_cons_self_none rfl hc]
      | some c =>
        rw [childrenOf_upsert_self_some acc row c hc,
          rowChildPks_cons_self_some rfl hc, map_pk_addChildIfNew]
        by_cases hcp : c.pk ∈ (childrenOf acc row.rootPk).map ChildObj.pk
        · rw [if_pos hcp, firstSeenFrom, if_pos hcp]
        · rw [if_neg hcp, firstSeenFrom, if_neg hcp,
            @firstSeenFrom_congr
              ((childrenOf acc row.rootPk).map ChildObj.pk ++ [c.pk])
              (c.pk :: (childrenOf acc row.rootPk).map ChildObj.pk)
              (by intro y; simp [List.mem_append, or_comm]) (rowChildPks row.rootPk rest)]
          simp [List.append_assoc]
    · rw [childrenOf_upsert_ne acc row k hk, rowChildPks_cons_ne hk]

/-- **C3.** Hydrating any ordered row sequence (including duplicated parent
rows from to-many joins) yields: one root object per distinct root primary
key (root key list has no duplicates and covers exactly the keys occurring
in the rows), roots in first-seen row order, and for every root the to-many
child collection has no duplicate child primary keys and lists children in
the order they first appeared across the rows. -/
theorem hydrate_dedup_first_seen (rows : List HRow) :
    (hydrate rows).map RootObj.pk = firstSeen (rows.map HRow.rootPk) ∧
    ((hydrate rows).map RootObj.pk).Nodup ∧
    (∀ k, k ∈ (hydrate rows).map RootObj.pk ↔ k ∈ rows.map HRow.rootPk) ∧
    (∀ k, (childrenOf (hydrate rows) k).map ChildObj.pk
            = firstSeen (rowChildPks k rows) ∧
          ((childrenOf (hydrate rows) k).map ChildObj.pk).Nodup) := by
  have hroot : (hydrate rows).map RootObj.pk = firstSeen (rows.map HRow.rootPk) := by
    rw [hydrate, hydrateAux_map_pk]
    rfl
  refine ⟨hroot, ?_, ?_, ?_⟩
  · rw [hroot]
    exact firstSeenFrom_nodup _ _
  · intro k
    rw [hroot, firstSeen, mem_firstSeenFrom]
    simp
  · intro k
    have hch : (childrenOf (hydrate rows) k).map ChildObj.pk
        = firstSeen (rowChildPks k rows) := by
      rw [hydrate, hydrateAux_children]
      rfl
    exact ⟨hch, hch ▸ firstSeenFrom_nodup _ _⟩

/-- **C4.** On a model that still has unresolved forward-reference
placeholders, `create`, `get` and construction with values all fail with the
ModelNotReady error kind, and the error is raised eagerly: the database
state comes back unchanged, so no database interaction took place. -/
theorem model_not_ready_eager (m : ModelClass) (vals : List (String × Value))
    (db : Db) (results : List Instance) (h : m.pendingRefs ≠ []) :
    createOp m vals db = (db, .error (.modelNotReady m.name)) ∧
    getOp m db results = (db, .error (.modelNotReady m.name)) ∧
    constructOp m vals = .error (.modelNotReady m.name) := by
  refine ⟨?_, ?_, ?_⟩ <;> simp [createOp, getOp, constructOp, h]

/-- Concrete instantiation of `model_not_ready_eager`: the self-referential
`Person2` model of the test suite before `update_forward_refs`. -/
theorem model_not_ready_eager_witness :
    (ModelClass.mk "Person2"
      [⟨"id", .scalar⟩, ⟨"name", .scalar⟩,
       ⟨"supervisor", .rel (.placeholder "Person2")⟩]).pendingRefs ≠ [] ∧
    (createOp (ModelClass.mk "Person2"
        [⟨"id", .scalar⟩, ⟨"name", .scalar⟩,
         ⟨"supervisor", .rel (.placeholder "Person2")⟩])
        [("name", .str "Test")] ⟨0⟩ =
      (⟨0⟩, .error (.modelNotReady "Person2")) ∧
     getOp (ModelClass.mk "Person2"
        [⟨"id", .scalar⟩, ⟨"name", .scalar⟩,
         ⟨"supervisor", .rel (.placeholder "Person2")⟩]) ⟨0⟩ [] =
      (⟨0⟩, .error (.modelNotReady "Person2")) ∧
     constructOp (ModelClass.mk "Person2"
        [⟨"id", .scalar⟩, ⟨"name", .scalar⟩,
         ⟨"supervisor", .rel (.placeholder "Person2")⟩])
        [("name", .str "Test")] =
      .error (.modelNotReady "Person2")) :=
  ⟨by decide,
   model_not_ready_eager
     (ModelClass.mk "Person2"
       [⟨"id", .scalar⟩, ⟨"name", .scalar⟩,
        ⟨"supervisor", .rel (.placeholder "Person2")⟩])
     [("name", .str "Test")] ⟨0⟩ [] (by decide)⟩

/-- **C7.** `update_forward_refs` rewrites a pending descriptor to the
now-available concrete class: any field whose target is a placeholder on a
name the registry has declared points, after resolving, at the concrete
class of that name.  Instantiating `n` with the model's own name gives the
self-referential case (the target becomes the model class itself), and with
a through-model's name the registered through-field case. -/
theorem update_forward_refs_resolves (reg : Registry) (m : ModelClass)
    (fname n : String) (hn : n ∈ reg.defined)
    (hf : FieldDef.mk fname (.rel (.placeholder n)) ∈ m.fields) :
    FieldDef.mk fname (.rel (.concrete n)) ∈ (updateForwardRefs reg m).fields := by
  rw [updateForwardRefs]
  refine List.mem_map.mpr ⟨_, hf, ?_⟩
  simp [resolveFieldTy, resolveTarget, hn]

/-- Concrete instantiation of `update_forward_refs_resolves`: the
self-referential `supervisor` field of `Person` resolves to `Person` itself,
and the registered through field `postcategory2` of `Post2` resolves to the
concrete `PostCategory2`. -/
theorem update_forward_refs_resolves_witness :
    ("Person" ∈ (Registry.mk ["Person"]).defined ∧
     FieldDef.mk "supervisor" (.rel (.placeholder "Person")) ∈
       (ModelClass.mk "Person"
         [⟨"id", .scalar⟩, ⟨"supervisor", .rel (.placeholder "Person")⟩]).fields ∧
     FieldDef.mk "supervisor" (.rel (.concrete "Person")) ∈
       (updateForwardRefs (Registry.mk ["Person"])
         (ModelClass.mk "Person"
           [⟨"id", .scalar⟩, ⟨"supervisor", .rel (.placeholder "Person")⟩])).fields) ∧
    ("PostCategory2" ∈ (Registry.mk ["Post2", "PostCategory2"]).defined ∧
     FieldDef.mk "postcategory2" (.rel (.placeholder "PostCategory2")) ∈
       (ModelClass.mk "Post2"
         [⟨"id", .scalar⟩,
          ⟨"postcategory2", .rel (.placeholder "PostCategory2")⟩]).fields ∧
     FieldDef.mk "postcategory2" (.rel (.concrete "PostCategory2")) ∈
       (updateForwardRefs (Registry.mk ["Post2", "PostCategory2"])
         (ModelClass.mk "Post2"
           [⟨"id", .scalar⟩,
            ⟨"postcategory2", .rel (.placeholder "PostCategory2")⟩])).fields) :=
  ⟨⟨by decide, by decide,
    update_forward_refs_resolves (Registry.mk ["Person"])
      (ModelClass.mk "Person"
        [⟨"id", .scalar⟩, ⟨"supervisor", .rel (.placeholder "Person")⟩])
      "supervisor" "Person" (by decide) (by decide)⟩,
   ⟨by decide, by decide,
    update_forward_refs_resolves (Registry.mk ["Post2", "PostCategory2"])
      (ModelClass.mk "Post2"
        [⟨"id", .scalar⟩,
         ⟨"postcategory2", .rel (.placeholder "PostCategory2")⟩])
      "postcategory2" "PostCategory2" (by decide) (by decide)⟩⟩

theorem find?_append_of_some {α : Type} (p : α → Bool) {l₁ : List α} (l₂ : List α)
    {x : α} (h : l₁.find? p = some x) : (l₁ ++ l₂).find? p = some x := by
  induction l₁ with
  | nil => simp [List.find?] at h
  | cons a l ih =>
    rw [List.cons_append]
    cases hp : p a with
    | true => rw [List.find?_cons_of_pos _ hp] at h ⊢; exact h
    | false =>
      rw [List.find?_cons_of_neg _ (by simp [hp])] at h ⊢
      exact ih h

theorem lookup_resolve_preserved (am : AliasManager) (q p : List String) (a : Nat)
    (h : am.lookup p = some a) : ((am.resolve q).1).lookup p = some a := by
  rw [AliasManager.resolve]
  cases hq : am.lookup q with
  | some b => exact h
  | none =>
    rw [AliasManager.lookup] at h ⊢
    cases hf : am.assigned.find? (fun e => e.1 == p) with
    | none => rw [hf] at h; simp at h
    | some e =>
      rw [hf] at h
      rw [find?_append_of_some _ _ hf]
      exact h

theorem lookup_resolveAll_preserved (tail : List (List String)) :
    ∀ (am : AliasManager) (p : List String) (a : Nat),
      am.lookup p = some a → (am.resolveAll tail).lookup p = some a := by
  induction tail with
  | nil => intro am p a h; exact h
  | cons q qs ih =>
    intro am p a h
    rw [AliasManager.resolveAll]
    exact ih _ p a (lookup_resolve_preserved am q p a h)

theorem find?_append_of_none {α : Type} (p : α → Bool) {l₁ : List α} (l₂ : List α)
    (h : l₁.find? p = none) : (l₁ ++ l₂).find? p = l₂.find? p := by
  induction l₁ with
  | nil => rfl
  | cons a l ih =>
    cases hp : p a with
    | true =>
      rw [List.find?_cons_of_pos _ hp] at h
      exact absurd h (by simp)
    | false =>
      rw [List.find?_cons_of_neg _ (by simp [hp])] at h
      rw [List.cons_append, List.find?_cons_of_neg _ (by simp [hp])]
      exact ih h

theorem lookup_after_resolve (am : AliasManager) (p : List String) :
    ((am.resolve p).1).lookup p = some (am.resolve p).2 := by
  rw [AliasManager.resolve]
  cases hq : am.lookup p with
  | some b => exact hq
  | none =>
    have hf : am.assigned.find? (fun e => e.1 == p) = none := by
      rw [AliasManager.lookup] at hq
      exact Option.map_eq_none'.mp hq
    show AliasManager.lookup _ p = _
    rw [AliasManager.lookup, find?_append_of_none _ _ hf,
      List.find?_cons_of_pos _ (by simp)]
    rfl

theorem inv_empty : AliasManager.empty.Inv := rfl

theorem inv_resolve {am : AliasManager} (h : am.Inv) (p : List String) :
    ((am.resolve p).1).Inv := by
  rw [AliasManager.resolve]
  cases hq : am.lookup p with
  | some b => exact h
  | none =>
    show AliasManager.Inv _
    rw [AliasManager.Inv] at h ⊢
    simp only [List.map_append, List.length_append, List.map_cons, List.map_nil,
      List.length_cons, List.length_nil]
    rw [h, ← List.range_succ]

theorem inv_resolveAll (ops : List (List String)) :
    ∀ {am : AliasManager}, am.Inv → (am.resolveAll ops).Inv := by
  induction ops with
  | nil => intro am h; exact h
  | cons p ps ih => intro am h; exact ih (inv_resolve h p)

theorem lookup_entry {am : AliasManager} {p : List String} {a : Nat}
    (h : am.lookup p = some a) :
    ∃ e ∈ am.assigned, e.1 = p ∧ e.2 = a := by
  rw [AliasManager.lookup] at h
  cases hf : am.assigned.find? (fun e => e.1 == p) with
  | none => rw [hf] at h; simp at h
  | some e =>
    rw [hf] at h
    refine ⟨e, List.mem_of_find?_eq_some hf, ?_, by simpa using h⟩
    simpa using List.find?_some hf

theorem lookup_injective {am : AliasManager} (h : am.Inv) {p₁ p₂ : List String}
    {a₁ a₂ : Nat} (h₁ : am.lookup p₁ = some a₁) (h₂ : am.lookup p₂ = some a₂)
    (hne : p₁ ≠ p₂) : a₁ ≠ a₂ := by
  obtain ⟨e₁, he₁m, he₁p, he₁a⟩ := lookup_entry h₁
  obtain ⟨e₂, he₂m, he₂p, he₂a⟩ := lookup_entry h₂
  intro hea
  have hsnd : (am.assigned.map Prod.snd).Nodup := by
    rw [h]; exact List.nodup_range _
  have heq : e₁ = e₂ :=
    List.inj_on_of_nodup_map hsnd he₁m he₂m (by rw [he₁a, he₂a, hea])
  exact hne (by rw [← he₁p, ← he₂p, heq])

/-- **C5.** Within one query the alias state reached from empty by any
reference sequence maps every relation path to exactly one alias: a resolved
path's alias is immediately visible by lookup, stays identical under any
further references, and two distinct paths always hold distinct aliases —
the assignment never consults a target model, so this holds in particular
for self-join paths like `supervisor` and `employees` that reach the same
model. -/
theorem alias_per_path_unique (ops : List (List String)) :
    (∀ (p : List String),
        (((AliasManager.empty.resolveAll ops).resolve p).1).lookup p
          = some ((AliasManager.empty.resolveAll ops).resolve p).2) ∧
    (∀ (tail : List (List String)) (p : List String) (a : Nat),
        (AliasManager.empty.resolveAll ops).lookup p = some a →
        ((AliasManager.empty.resolveAll ops).resolveAll tail).lookup p = some a) ∧
    (∀ (p₁ p₂ : List String) (a₁ a₂ : Nat),
        (AliasManager.empty.resolveAll ops).lookup p₁ = some a₁ →
        (AliasManager.empty.resolveAll ops).lookup p₂ = some a₂ →
        p₁ ≠ p₂ → a₁ ≠ a₂) :=
  ⟨fun p => lookup_after_resolve _ p,
   fun tail p a h => lookup_resolveAll_preserved tail _ p a h,
   fun _ _ _ _ h₁ h₂ hne =>
     lookup_injective (inv_resolveAll ops inv_empty) h₁ h₂ hne⟩

/-- Concrete instantiation of `alias_per_path_unique`: the self-join paths
`supervisor` and `employees` of the `Person` model receive the distinct
aliases 0 and 1. -/
theorem alias_per_path_unique_witness :
    (AliasManager.empty.resolveAll [["supervisor"], ["employees"]]).lookup
        ["supervisor"] = some 0 ∧
    (AliasManager.empty.resolveAll [["supervisor"], ["employees"]]).lookup
        ["employees"] = some 1 ∧
    (0 : Nat) ≠ 1 :=
  ⟨by decide, by decide,
   (alias_per_path_unique [["supervisor"], ["employees"]]).2.2
     ["supervisor"] ["employees"] 0 1 (by decide) (by decide) (by decide)⟩

/-- **C6.** After `add(child, extras)` on a many-to-many relation with a
through model, the extra through-column values are retrievable by directly
querying the through model, and via the embedded through reference on the
child when the relation is traversed from the owning side; traversing the
reverse side never exposes a through payload. -/
theorem through_payload_sides (st : M2MState) (o c : Nat)
    (extras : List (String × Value)) :
    (⟨o, c, extras⟩ : ThroughRow) ∈ (st.add o c extras).queryThrough ∧
    (st.add o c extras).loadOwning o = st.loadOwning o ++ [⟨c, some extras⟩] ∧
    (∀ (st' : M2MState) (x : Nat),
        (st'.loadReverse x).all (fun v => v.through == none) = true) := by
  refine ⟨?_, ?_, ?_⟩
  · simp [M2MState.add, M2MState.queryThrough]
  · simp [M2MState.add, M2MState.loadOwning, List.filter_append]
  · intro st' x
    simp only [M2MState.loadReverse, List.all_eq_true]
    intro v hv
    obtain ⟨tr, _, htr⟩ := List.mem_map.mp hv
    rw [← htr]
    rfl

/-- **C10.** Immediately after `add(child)` the child reachable from the
owning side carries the embedded through attribute unset (`None`); the
payload appears only once the relation is subsequently loaded by a query. -/
theorem through_unset_until_loaded (st : M2MState) (o c : Nat)
    (extras : List (String × Value)) :
    (st.add o c extras).childrenOfOwner o
        = st.childrenOfOwner o ++ [⟨c, none⟩] ∧
    ((st.add o c extras).loadAll o).childrenOfOwner o
        = st.loadOwning o ++ [⟨c, some extras⟩] := by
  constructor
  · simp [M2MState.add, M2MState.childrenOfOwner]
  · simp [M2MState.add, M2MState.loadAll, M2MState.childrenOfOwner,
      M2MState.loadOwning, List.filter_append]

/-- **C8.** When the join plan contains a to-many join and a limit is also
requested on the root, plan construction yields `QueryDefinitionError`, and
running the query surfaces that error with the database untouched — the
error precedes any I/O. -/
theorem limit_with_to_many_rejected (q : QueryRequest) (db : Db) (n : Nat)
    (hj : q.joins.any JoinEntry.toMany = true) (hl : q.limit = some n) :
    buildPlan q = .error .queryDefinitionError ∧
    runQuery q db = (db, .error .queryDefinitionError) := by
  have hb : buildPlan q = .error .queryDefinitionError := by
    rw [buildPlan, if_pos (by rw [hj, hl]; rfl)]
  exact ⟨hb, by rw [runQuery, hb]⟩

/-- Concrete instantiation of `limit_with_to_many_rejected`:
`select_related("children").limit(1)`. -/
theorem limit_with_to_many_rejected_witness :
    (([⟨["children"], 0, true⟩] : List JoinEntry).any JoinEntry.toMany = true) ∧
    ((QueryRequest.mk [⟨["children"], 0, true⟩] [] (some 1) none).limit = some 1) ∧
    (buildPlan (QueryRequest.mk [⟨["children"], 0, true⟩] [] (some 1) none)
        = .error .queryDefinitionError ∧
     runQuery (QueryRequest.mk [⟨["children"], 0, true⟩] [] (some 1) none) ⟨0⟩
        = (⟨0⟩, .error .queryDefinitionError)) :=
  ⟨by decide, rfl,
   limit_with_to_many_rejected
     (QueryRequest.mk [⟨["children"], 0, true⟩] [] (some 1) none) ⟨0⟩ 1
     (by decide) rfl⟩

/-- **C9.** A ManyToMany declaration with an explicit through model registers
the through model on the owner as a model field named by the through class's
lowercased name, and that name works directly as a path segment in filter
and order_by keys on the owner without naming the many-to-many relation
segment: `postcategory__sort_order__gt` resolves on `Post`,
`posts__postcategory__sort_order__gt` resolves on `Blog`, and
`-postcategory__sort_order` resolves as a descending order key on `Post`. -/
theorem through_field_registered_and_resolvable :
    (∀ d : M2MDecl,
        SchemaField.mk (lowerName d.through) (.rel d.through true) ∈ m2mOwnerFields d) ∧
    SchemaField.mk "postcategory" (.rel "PostCategory" true)
        ∈ postsSchema.fieldsOf "Post" ∧
    resolveFilterKey postsSchema "Post" "postcategory__sort_order__gt"
        = .ok ⟨["postcategory"], "sort_order", .gt⟩ ∧
    resolveFilterKey postsSchema "Blog" "posts__postcategory__sort_order__gt"
        = .ok ⟨["posts", "postcategory"], "sort_order", .gt⟩ ∧
    resolveOrderKey postsSchema "Post" "-postcategory__sort_order"
        = .ok (⟨["postcategory"], "sort_order", .exact⟩, true) :=
  ⟨fun d => by simp [m2mOwnerFields], by decide, by decide, by decide, by decide⟩

end AsyncOrm
